import Mathlib

set_option maxRecDepth 100000

/-!
Shallow embedding of the compiler-runtime integer division and modulo
primitives of this repository: `__divsi3` from src/runtime/lib/divsi3.c
(the branch-free signed 32-bit division wrapper around the unsigned
divider `__udivsi3`), and the `__modti3` conformance test harness from
the modti3 test file.

A machine word of width `w` is represented by its two's-complement bit
pattern, a natural number below `2 ^ w`.  `toIntW` reads a pattern as a
signed value, `ofIntW` encodes a signed value as a pattern (reducing
modulo `2 ^ w`).  All C arithmetic is modelled with explicit wrapping
modulo `2 ^ w`.
-/

/-- The signed value of a `w`-bit two's-complement pattern. -/
def toIntW (w x : Nat) : Int :=
  if x < 2 ^ (w - 1) then (x : Int) else (x : Int) - 2 ^ w

/-- The `w`-bit two's-complement pattern of an integer, reduced modulo `2 ^ w`. -/
def ofIntW (w : Nat) (i : Int) : Nat :=
  (i % (2 ^ w : Int)).toNat

/-- C arithmetic right shift of a `w`-bit pattern by `w - 1` bits
(divsi3.c: `s_a = a >> bits_in_word_m1`): the all-ones pattern if the
sign bit is set, the all-zeros pattern otherwise. -/
def sMask (w x : Nat) : Nat :=
  if x < 2 ^ (w - 1) then 0 else 2 ^ w - 1

/-- `w`-bit wrapping subtraction of patterns. -/
def subW (w x y : Nat) : Nat :=
  (x + 2 ^ w - y) % 2 ^ w

/-- `w`-bit wrapping negation of a pattern (the C unary minus). -/
def negW (w x : Nat) : Nat :=
  (2 ^ w - x) % 2 ^ w

/-- The branch-free conditional-negation idiom of divsi3.c:
`(x ^ mask) - mask` in `w`-bit arithmetic (negates exactly when `mask`
is the all-ones pattern). -/
def condNeg (w x m : Nat) : Nat :=
  subW w (x ^^^ m) m

/-- The leaf unsigned divider `__udivsi3(n, d)`, assumed (as the claims
do) to return the truncated unsigned quotient; on patterns this is
natural-number division. -/
def __udivsi3 (n d : Nat) : Nat := n / d

/-- src/runtime/lib/divsi3.c, `__divsi3`: signed 32-bit division by
sign-mask normalization around `__udivsi3`. -/
def __divsi3 (a b : Nat) : Nat :=
  let s_a := sMask 32 a
  let s_b := sMask 32 b
  let a' := condNeg 32 a s_a
  let b' := condNeg 32 b s_b
  let s := s_a ^^^ s_b
  condNeg 32 (__udivsi3 a' b') s

/-- The remainder the spec derives from `__divsi3`:
`modulo_native(a, b) = a - __divsi3(a, b) * b` in 32-bit arithmetic. -/
def modulo_native (a b : Nat) : Nat :=
  subW 32 a (__divsi3 a b * b % 2 ^ 32)

/-- Modelled from the spec: the signed double-width modulo `modulo_wide`
(C symbol `__modti3`), whose implementation is not among the given
sources — only its conformance test is. Following spec sections 4.2-4.4:
compute each operand's sign mask by arithmetic right shift, take
branch-free absolute values, feed them to the unsigned wide divider's
remainder (section 4.3's out-parameter; on patterns the natural-number
remainder), and negate the remainder back by the dividend's sign mask,
so that the remainder carries the sign of the dividend (section 3).
Operands and result are 128-bit two's-complement patterns. -/
def __modti3 (a b : Nat) : Nat :=
  let s_a := sMask 128 a
  let s_b := sMask 128 b
  let a' := condNeg 128 a s_a
  let b' := condNeg 128 b s_b
  condNeg 128 (a' % b') s_a

/-- The test driver `test__modti3` returns C `1` (here `true`) exactly when
the computed remainder pattern differs from the expected one. -/
def test__modti3 (a b expected : Nat) : Bool :=
  __modti3 a b != expected

/-- How many diagnostic lines `test__modti3` prints: one `printf` on a
mismatch, none on a pass. -/
def test__modti3_lines (a b expected : Nat) : Nat :=
  if __modti3 a b ≠ expected then 1 else 0

/-- The `main` loop: run the table entries in order and return 1 at the
first failing one (each C `if (test__modti3(...)) return 1;`), else 0. -/
def run_main : List (Nat × Nat × Nat) → Nat
  | [] => 0
  | (a, b, e) :: rest => if test__modti3 a b e then 1 else run_main rest

/-- The eighteen operand/expected triples of `main`, as 128-bit patterns.
In C, `0x8000000000000000LL` is an unsigned 64-bit literal of value
`2 ^ 63`, positive once widened to `ti_int`, while
`make_ti(0x8000000000000000LL, 0)` builds the pattern with high half
`0x8000000000000000` and low half `0`: the most negative `ti_int`,
`-2 ^ 127`, i.e. the pattern `2 ^ 127`. -/
def mainTable : List (Nat × Nat × Nat) :=
  [ (0, 1, 0), (0, ofIntW 128 (-1), 0),
    (5, 3, 2), (5, ofIntW 128 (-3), 2),
    (ofIntW 128 (-5), 3, ofIntW 128 (-2)),
    (ofIntW 128 (-5), ofIntW 128 (-3), ofIntW 128 (-2)),
    (2 ^ 63, 1, 0), (2 ^ 63, ofIntW 128 (-1), 0),
    (2 ^ 63, 2, 0), (2 ^ 63, ofIntW 128 (-2), 0),
    (2 ^ 63, 3, 2), (2 ^ 63, ofIntW 128 (-3), 2),
    (2 ^ 127, 1, 0), (2 ^ 127, ofIntW 128 (-1), 0),
    (2 ^ 127, 2, 0), (2 ^ 127, ofIntW 128 (-2), 0),
    (2 ^ 127, 3, ofIntW 128 (-2)), (2 ^ 127, ofIntW 128 (-3), ofIntW 128 (-2)) ]

/-- `main` as a function of the preprocessor condition: with `__x86_64`
set the table runs; otherwise every test block is compiled away and the
body is just `return 0`. -/
def main_result (x86_64 : Bool) : Nat :=
  if x86_64 then run_main mainTable else 0

section WordLemmas

/-- Xor with the all-ones pattern is complement: for `a < 2 ^ w`,
`a ^^^ (2 ^ w - 1) = 2 ^ w - 1 - a`. -/
theorem xor_allOnes_eq (w a : Nat) (h : a < 2 ^ w) :
    a ^^^ (2 ^ w - 1) = 2 ^ w - 1 - a := by
  have h1 : (BitVec.ofNat w a).toNat = a := by
    simp [BitVec.toNat_ofNat, Nat.mod_eq_of_lt h]
  have h2 := BitVec.toNat_not (x := BitVec.ofNat w a)
  rw [BitVec.not_def, BitVec.toNat_xor, BitVec.toNat_allOnes, h1, Nat.xor_comm] at h2
  exact h2

theorem xor_lt_two_pow {w a b : Nat} (ha : a < 2 ^ w) (hb : b < 2 ^ w) :
    a ^^^ b < 2 ^ w :=
  Nat.xor_lt_two_pow ha hb

theorem condNeg_zero (w x : Nat) (hx : x < 2 ^ w) : condNeg w x 0 = x := by
  simp only [condNeg, subW, Nat.xor_zero, Nat.sub_zero]
  rw [Nat.add_mod_right, Nat.mod_eq_of_lt hx]

theorem condNeg_allOnes (w x : Nat) (hx : x < 2 ^ w) :
    condNeg w x (2 ^ w - 1) = (2 ^ w - x) % 2 ^ w := by
  have h0 : 0 < 2 ^ w := Nat.pos_pow_of_pos w (by omega)
  simp only [condNeg, subW, xor_allOnes_eq w x hx]
  congr 1
  omega

theorem two_pow_split (w : Nat) (hw : 0 < w) : 2 ^ w = 2 * 2 ^ (w - 1) := by
  cases w with
  | zero => omega
  | succ n => simp [Nat.pow_succ, Nat.mul_comm]

theorem toIntW_nonneg_eq (w x : Nat) (h : x < 2 ^ (w - 1)) :
    toIntW w x = (x : Int) := by
  simp [toIntW, h]

theorem toIntW_neg_eq (w x : Nat) (h : ¬ x < 2 ^ (w - 1)) :
    toIntW w x = (x : Int) - ((2 ^ w : Nat) : Int) := by
  simp [toIntW, h]

/-- Reading a pattern below `2 ^ (w-1)` is nonnegative with value `x`;
on or above the halfway point it is the negative of the pattern's
`2 ^ w`-complement. -/
theorem toIntW_natAbs_lo (w x : Nat) (h : x < 2 ^ (w - 1)) :
    (toIntW w x).natAbs = x ∧ 0 ≤ toIntW w x := by
  rw [toIntW_nonneg_eq w x h]
  exact ⟨Int.natAbs_ofNat x, Int.ofNat_nonneg x⟩

theorem toIntW_natAbs_hi (w x : Nat) (hx : x < 2 ^ w) (h : ¬ x < 2 ^ (w - 1)) :
    (toIntW w x).natAbs = 2 ^ w - x ∧ toIntW w x = -(((2 ^ w - x : Nat) : Int)) := by
  rw [toIntW_neg_eq w x h]
  have hle : x ≤ 2 ^ w := le_of_lt hx
  have hcast : ((2 ^ w - x : Nat) : Int) = ((2 ^ w : Nat) : Int) - (x : Int) :=
    Int.ofNat_sub hle
  constructor
  · rw [show (x : Int) - ((2 ^ w : Nat) : Int) = -(((2 ^ w - x : Nat) : Int)) by
      rw [hcast]; ring]
    rw [Int.natAbs_neg, Int.natAbs_ofNat]
  · rw [hcast]; ring

/-- The branch-free idiom applied to a pattern's own sign mask computes the
natural absolute value of the signed reading (the most negative value
included: its absolute value `2 ^ (w-1)` is again its own pattern). -/
theorem condNeg_sMask (w x : Nat) (hx : x < 2 ^ w) :
    condNeg w x (sMask w x) = (toIntW w x).natAbs := by
  by_cases h : x < 2 ^ (w - 1)
  · rw [sMask, if_pos h, condNeg_zero w x hx, (toIntW_natAbs_lo w x h).1]
  · have hw : 0 < w := by
      rcases Nat.eq_zero_or_pos w with h0 | h0
      · exfalso; apply h; subst h0; simpa using hx
      · exact h0
    have hxpos : 0 < x := by
      have h1 : 0 < 2 ^ (w - 1) := Nat.pos_pow_of_pos _ (by omega)
      omega
    rw [sMask, if_neg h, condNeg_allOnes w x hx, (toIntW_natAbs_hi w x hx h).1,
      Nat.mod_eq_of_lt (by omega)]

theorem ofIntW_ofNat (w n : Nat) (h : n < 2 ^ w) : ofIntW w (n : Int) = n := by
  have hpos : (0 : Int) < ((2 ^ w : Nat) : Int) := by
    exact_mod_cast Nat.pos_pow_of_pos w (by omega)
  rw [ofIntW]
  rw [show ((2 : Int) ^ w) = ((2 ^ w : Nat) : Int) by push_cast; ring]
  rw [Int.emod_eq_of_lt (Int.ofNat_nonneg n) (by exact_mod_cast h)]
  simp

theorem ofIntW_neg_ofNat (w n : Nat) (h : n ≤ 2 ^ w) :
    ofIntW w (-(n : Int)) = (2 ^ w - n) % 2 ^ w := by
  rw [ofIntW]
  rw [show ((2 : Int) ^ w) = ((2 ^ w : Nat) : Int) by push_cast; ring]
  rw [show (-(n : Int)) = ((2 ^ w - n : Nat) : Int) + (-1) * ((2 ^ w : Nat) : Int) by
    rw [Int.ofNat_sub h]; ring]
  rw [Int.add_mul_emod_self]
  norm_cast

theorem natAbs_toIntW_le (w x : Nat) (hx : x < 2 ^ w) :
    (toIntW w x).natAbs ≤ 2 ^ (w - 1) := by
  by_cases h : x < 2 ^ (w - 1)
  · rw [(toIntW_natAbs_lo w x h).1]; omega
  · have hw : 0 < w := by
      rcases Nat.eq_zero_or_pos w with h0 | h0
      · exfalso; apply h; subst h0; simpa using hx
      · exact h0
    have h2 := two_pow_split w hw
    rw [(toIntW_natAbs_hi w x hx h).1]; omega

end WordLemmas

section DivisionLemmas

/-- `__divsi3` computes, on 32-bit patterns, exactly the pattern of the
truncated (round-toward-zero) signed quotient, modulo `2 ^ 32`. -/
theorem divsi3_eq (a b : Nat) (ha : a < 2 ^ 32) (hb : b < 2 ^ 32) :
    __divsi3 a b = ofIntW 32 ((toIntW 32 a).tdiv (toIntW 32 b)) := by
  have hq32 : (toIntW 32 a).natAbs / (toIntW 32 b).natAbs ≤ 2 ^ 31 :=
    le_trans (Nat.div_le_self _ _) (natAbs_toIntW_le 32 a ha)
  have hqlt : (toIntW 32 a).natAbs / (toIntW 32 b).natAbs < 2 ^ 32 := by
    have hlt : (2 : Nat) ^ 31 < 2 ^ 32 := by norm_num
    omega
  have hq32' : (toIntW 32 a).natAbs / (toIntW 32 b).natAbs ≤ 2 ^ 32 :=
    le_of_lt hqlt
  simp only [__divsi3, __udivsi3, condNeg_sMask 32 a ha, condNeg_sMask 32 b hb]
  by_cases hA : a < 2 ^ (32 - 1) <;> by_cases hB : b < 2 ^ (32 - 1)
  · have hsa : sMask 32 a = 0 := by rw [sMask, if_pos hA]
    have hsb : sMask 32 b = 0 := by rw [sMask, if_pos hB]
    have hta : toIntW 32 a = ((toIntW 32 a).natAbs : Int) := by
      conv_rhs => rw [(toIntW_natAbs_lo 32 a hA).1]
      exact toIntW_nonneg_eq 32 a hA
    have htb : toIntW 32 b = ((toIntW 32 b).natAbs : Int) := by
      conv_rhs => rw [(toIntW_natAbs_lo 32 b hB).1]
      exact toIntW_nonneg_eq 32 b hB
    rw [hsa, hsb, Nat.xor_self, condNeg_zero 32 _ hqlt]
    conv_rhs => rw [hta, htb, ← Int.ofNat_tdiv]
    rw [ofIntW_ofNat 32 _ hqlt]
  · have hsa : sMask 32 a = 0 := by rw [sMask, if_pos hA]
    have hsb : sMask 32 b = 2 ^ 32 - 1 := by rw [sMask, if_neg hB]
    have hta : toIntW 32 a = ((toIntW 32 a).natAbs : Int) := by
      conv_rhs => rw [(toIntW_natAbs_lo 32 a hA).1]
      exact toIntW_nonneg_eq 32 a hA
    have htb : toIntW 32 b = -(((toIntW 32 b).natAbs : Nat) : Int) := by
      conv_rhs => rw [(toIntW_natAbs_hi 32 b hb hB).1]
      exact (toIntW_natAbs_hi 32 b hb hB).2
    rw [hsa, hsb, Nat.zero_xor, condNeg_allOnes 32 _ hqlt]
    conv_rhs => rw [hta, htb, Int.tdiv_neg, ← Int.ofNat_tdiv]
    rw [ofIntW_neg_ofNat 32 _ hq32']
  · have hsa : sMask 32 a = 2 ^ 32 - 1 := by rw [sMask, if_neg hA]
    have hsb : sMask 32 b = 0 := by rw [sMask, if_pos hB]
    have hta : toIntW 32 a = -(((toIntW 32 a).natAbs : Nat) : Int) := by
      conv_rhs => rw [(toIntW_natAbs_hi 32 a ha hA).1]
      exact (toIntW_natAbs_hi 32 a ha hA).2
    have htb : toIntW 32 b = ((toIntW 32 b).natAbs : Int) := by
      conv_rhs => rw [(toIntW_natAbs_lo 32 b hB).1]
      exact toIntW_nonneg_eq 32 b hB
    rw [hsa, hsb, Nat.xor_zero, condNeg_allOnes 32 _ hqlt]
    conv_rhs => rw [hta, htb, Int.neg_tdiv, ← Int.ofNat_tdiv]
    rw [ofIntW_neg_ofNat 32 _ hq32']
  · have hsa : sMask 32 a = 2 ^ 32 - 1 := by rw [sMask, if_neg hA]
    have hsb : sMask 32 b = 2 ^ 32 - 1 := by rw [sMask, if_neg hB]
    have hta : toIntW 32 a = -(((toIntW 32 a).natAbs : Nat) : Int) := by
      conv_rhs => rw [(toIntW_natAbs_hi 32 a ha hA).1]
      exact (toIntW_natAbs_hi 32 a ha hA).2
    have htb : toIntW 32 b = -(((toIntW 32 b).natAbs : Nat) : Int) := by
      conv_rhs => rw [(toIntW_natAbs_hi 32 b hb hB).1]
      exact (toIntW_natAbs_hi 32 b hb hB).2
    rw [hsa, hsb, Nat.xor_self, condNeg_zero 32 _ hqlt]
    conv_rhs => rw [hta, htb, Int.neg_tdiv_neg, ← Int.ofNat_tdiv]
    rw [ofIntW_ofNat 32 _ hqlt]

theorem ofIntW_lt (w : Nat) (i : Int) : ofIntW w i < 2 ^ w := by
  rw [ofIntW]
  have hM : (0 : Int) < (2 : Int) ^ w := by positivity
  have h1 := Int.emod_nonneg i (ne_of_gt hM)
  have h2 := Int.emod_lt_of_pos i hM
  have h3 : ((2 : Int) ^ w) = ((2 ^ w : Nat) : Int) := by push_cast; ring
  omega

theorem ofIntW_cast (w : Nat) (i : Int) :
    ((ofIntW w i : Nat) : Int) = i % (2 : Int) ^ w := by
  rw [ofIntW]
  exact Int.toNat_of_nonneg (Int.emod_nonneg i (by positivity))

theorem ofIntW_modEq (w : Nat) (i : Int) :
    ((ofIntW w i : Nat) : Int) ≡ i [ZMOD (2 : Int) ^ w] := by
  rw [ofIntW_cast]
  exact Int.emod_emod_of_dvd i dvd_rfl

theorem toIntW_modEq (w x : Nat) :
    toIntW w x ≡ (x : Int) [ZMOD (2 : Int) ^ w] := by
  by_cases h : x < 2 ^ (w - 1)
  · rw [toIntW_nonneg_eq w x h]
  · rw [toIntW_neg_eq w x h]
    apply Int.ModEq.symm
    rw [Int.modEq_iff_dvd]
    have h4 : (x : Int) - ((2 ^ w : Nat) : Int) - (x : Int) = -(((2 ^ w : Nat) : Int)) := by
      ring
    rw [h4]
    push_cast
    exact dvd_neg.mpr dvd_rfl

theorem patternsEq (w x y : Nat) (hx : x < 2 ^ w) (hy : y < 2 ^ w)
    (h : ((x : Nat) : Int) ≡ ((y : Nat) : Int) [ZMOD (2 : Int) ^ w]) : x = y := by
  have h1 : ((x : Nat) : Int) % (2 : Int) ^ w = ((x : Nat) : Int) :=
    Int.emod_eq_of_lt (Int.ofNat_nonneg x) (by exact_mod_cast hx)
  have h2 : ((y : Nat) : Int) % (2 : Int) ^ w = ((y : Nat) : Int) :=
    Int.emod_eq_of_lt (Int.ofNat_nonneg y) (by exact_mod_cast hy)
  have h3 : ((x : Nat) : Int) = ((y : Nat) : Int) := by
    have := h
    rw [Int.ModEq, h1, h2] at this
    exact this
  exact_mod_cast h3

theorem subW_cast (w x y : Nat) (hy : y ≤ x + 2 ^ w) :
    ((subW w x y : Nat) : Int) = ((x : Int) - (y : Int)) % (2 : Int) ^ w := by
  rw [subW]
  push_cast [Nat.cast_sub hy]
  rw [show (x : Int) + 2 ^ w - y = (x - y) + 1 * 2 ^ w by ring, Int.add_mul_emod_self]

/-- The derived remainder is exactly the pattern of the truncated signed
remainder `Int.tmod`. -/
theorem modulo_native_eq (a b : Nat) (ha : a < 2 ^ 32) (hb : b < 2 ^ 32) :
    modulo_native a b = ofIntW 32 ((toIntW 32 a).tmod (toIntW 32 b)) := by
  have hp : (0 : Nat) < 2 ^ 32 := Nat.pos_pow_of_pos 32 (by omega)
  have hmlt : __divsi3 a b * b % 2 ^ 32 < 2 ^ 32 := Nat.mod_lt _ hp
  have hLlt : modulo_native a b < 2 ^ 32 := by
    rw [modulo_native, subW]; exact Nat.mod_lt _ hp
  apply patternsEq 32 _ _ hLlt (ofIntW_lt 32 _)
  have e1 : ((modulo_native a b : Nat) : Int)
      = (((a : Int) - ((__divsi3 a b * b % 2 ^ 32 : Nat) : Int))) % (2 : Int) ^ 32 := by
    rw [modulo_native, subW_cast 32 a _ (by omega)]
  have h3 : ((a : Nat) : Int) ≡ toIntW 32 a [ZMOD (2 : Int) ^ 32] :=
    (toIntW_modEq 32 a).symm
  have h2 : ((b : Nat) : Int) ≡ toIntW 32 b [ZMOD (2 : Int) ^ 32] :=
    (toIntW_modEq 32 b).symm
  have h1 : ((__divsi3 a b : Nat) : Int)
      ≡ (toIntW 32 a).tdiv (toIntW 32 b) [ZMOD (2 : Int) ^ 32] := by
    rw [divsi3_eq a b ha hb]
    exact ofIntW_modEq 32 _
  calc ((modulo_native a b : Nat) : Int)
      ≡ (a : Int) - ((__divsi3 a b * b % 2 ^ 32 : Nat) : Int) [ZMOD (2 : Int) ^ 32] := by
        rw [e1]; exact Int.emod_emod_of_dvd _ dvd_rfl
    _ ≡ (toIntW 32 a) - (toIntW 32 a).tdiv (toIntW 32 b) * (toIntW 32 b)
        [ZMOD (2 : Int) ^ 32] := by
        apply Int.ModEq.sub h3
        have hm : ((__divsi3 a b * b % 2 ^ 32 : Nat) : Int)
            ≡ ((__divsi3 a b : Nat) : Int) * ((b : Nat) : Int) [ZMOD (2 : Int) ^ 32] := by
          push_cast
          exact Int.emod_emod_of_dvd _ dvd_rfl
        exact hm.trans (Int.ModEq.mul h1 h2)
    _ ≡ (toIntW 32 a).tmod (toIntW 32 b) [ZMOD (2 : Int) ^ 32] := by
        rw [Int.tmod_def, Int.mul_comm]
    _ ≡ ((ofIntW 32 ((toIntW 32 a).tmod (toIntW 32 b)) : Nat) : Int)
        [ZMOD (2 : Int) ^ 32] := (ofIntW_modEq 32 _).symm

theorem neg_tmod (a b : Int) : (-a).tmod b = -(a.tmod b) := by
  rw [Int.tmod_def, Int.tmod_def, Int.neg_tdiv]; ring

/-- The truncated remainder is zero or has the sign of the dividend. -/
theorem tmod_sign (a b : Int) : a.tmod b = 0 ∨ (a.tmod b).sign = a.sign := by
  rcases lt_trichotomy a 0 with h | h | h
  · have h1 : (0 : Int) ≤ (-a).tmod b := Int.tmod_nonneg b (by omega)
    rw [neg_tmod] at h1
    rcases eq_or_lt_of_le (by omega : a.tmod b ≤ 0) with h2 | h2
    · exact Or.inl h2
    · right
      rw [Int.sign_eq_neg_one_of_neg h2, Int.sign_eq_neg_one_of_neg h]
  · subst h; simp
  · have h1 : (0 : Int) ≤ a.tmod b := Int.tmod_nonneg b (le_of_lt h)
    rcases eq_or_lt_of_le h1 with h2 | h2
    · exact Or.inl h2.symm
    · right
      rw [Int.sign_eq_one_of_pos h2, Int.sign_eq_one_of_pos h]

/-- The magnitude of the truncated remainder is the `Nat` remainder of the
magnitudes. -/
theorem natAbs_tmod (a b : Int) : (a.tmod b).natAbs = a.natAbs % b.natAbs := by
  cases a <;> cases b <;> simp [Int.tmod, Nat.succ_eq_add_one] <;> norm_cast

theorem natAbs_tmod_lt (a b : Int) (hb : b ≠ 0) :
    (a.tmod b).natAbs < b.natAbs := by
  rw [natAbs_tmod]
  exact Nat.mod_lt _ (Int.natAbs_pos.mpr hb)

theorem toIntW_bounds (w x : Nat) (hx : x < 2 ^ w) :
    -(((2 ^ (w - 1) : Nat) : Int)) ≤ toIntW w x
      ∧ toIntW w x < ((2 ^ (w - 1) : Nat) : Int) := by
  by_cases h : x < 2 ^ (w - 1)
  · rw [toIntW_nonneg_eq w x h]
    constructor
    · have := Int.ofNat_nonneg x; omega
    · exact_mod_cast h
  · have hw : 0 < w := by
      rcases Nat.eq_zero_or_pos w with h0 | h0
      · exfalso; apply h; subst h0; simpa using hx
      · exact h0
    have h2 : ((2 ^ w : Nat) : Int) = 2 * ((2 ^ (w - 1) : Nat) : Int) := by
      exact_mod_cast two_pow_split w hw
    rw [toIntW_neg_eq w x h]
    have h3 : ((2 ^ (w - 1) : Nat) : Int) ≤ (x : Int) := by exact_mod_cast not_lt.mp h
    have h4 : (x : Int) < ((2 ^ w : Nat) : Int) := by exact_mod_cast hx
    omega

/-- Two integers in a window of width `2 * H` that agree modulo `2 * H`
are equal. -/
theorem intEq_of_modEq_small (H i j : Int) (hH : 0 < H)
    (h1 : -H ≤ i) (h2 : i < H) (h3 : -H ≤ j) (h4 : j < H)
    (h : i ≡ j [ZMOD 2 * H]) : i = j := by
  rw [Int.modEq_iff_dvd] at h
  rcases h with ⟨k, hk⟩
  rcases lt_trichotomy k 0 with hc | hc | hc
  · exfalso
    have hk1 : k ≤ -1 := by omega
    have : 2 * H * k ≤ 2 * H * (-1) :=
      mul_le_mul_of_nonneg_left hk1 (by omega)
    omega
  · subst hc; omega
  · exfalso
    have hk1 : 1 ≤ k := hc
    have : 2 * H * 1 ≤ 2 * H * k :=
      mul_le_mul_of_nonneg_left hk1 (by omega)
    omega

/-- Round trip: encoding a representable signed value and reading it back
is the identity. -/
theorem toIntW_ofIntW (w : Nat) (hw : 0 < w) (i : Int)
    (h1 : -(((2 ^ (w - 1) : Nat) : Int)) ≤ i)
    (h2 : i < ((2 ^ (w - 1) : Nat) : Int)) :
    toIntW w (ofIntW w i) = i := by
  have hlt : ofIntW w i < 2 ^ w := ofIntW_lt w i
  have hb := toIntW_bounds w (ofIntW w i) hlt
  have hme : toIntW w (ofIntW w i) ≡ i [ZMOD (2 : Int) ^ w] :=
    (toIntW_modEq w (ofIntW w i)).trans (ofIntW_modEq w i)
  have hsplit : ((2 ^ w : Nat) : Int) = 2 * ((2 ^ (w - 1) : Nat) : Int) := by
    exact_mod_cast two_pow_split w hw
  have hMcast : ((2 : Int) ^ w) = ((2 ^ w : Nat) : Int) := by push_cast; ring
  have hHpos : (0 : Int) < ((2 ^ (w - 1) : Nat) : Int) := by
    exact_mod_cast Nat.pos_pow_of_pos (w - 1) (by omega)
  apply intEq_of_modEq_small ((2 ^ (w - 1) : Nat) : Int) _ _ hHpos hb.1 hb.2 h1 h2
  rw [← hsplit, ← hMcast]
  exact hme

theorem int_bounds_of_natAbs_le (i : Int) (N : Nat) (h : i.natAbs ≤ N) :
    -((N : Nat) : Int) ≤ i ∧ i ≤ ((N : Nat) : Int) := by
  have hcast : ((i.natAbs : Nat) : Int) ≤ ((N : Nat) : Int) := by exact_mod_cast h
  rcases Int.natAbs_eq i with he | he <;> omega

/-- Reading back the remainder pattern gives the truncated remainder
itself: it is always representable in 32 bits. -/
theorem toIntW_modulo_native (a b : Nat) (ha : a < 2 ^ 32) (hb : b < 2 ^ 32) :
    toIntW 32 (modulo_native a b) = (toIntW 32 a).tmod (toIntW 32 b) := by
  rw [modulo_native_eq a b ha hb]
  apply toIntW_ofIntW 32 (by omega)
  · by_cases hib : toIntW 32 b = 0
    · rw [hib, Int.tmod_zero]
      exact (toIntW_bounds 32 a ha).1
    · have hlt := natAbs_tmod_lt (toIntW 32 a) (toIntW 32 b) hib
      have hble := natAbs_toIntW_le 32 b hb
      have := (int_bounds_of_natAbs_le _ _ (le_of_lt (lt_of_lt_of_le hlt hble))).1
      exact this
  · by_cases hib : toIntW 32 b = 0
    · rw [hib, Int.tmod_zero]
      exact (toIntW_bounds 32 a ha).2
    · have hlt := natAbs_tmod_lt (toIntW 32 a) (toIntW 32 b) hib
      have hble := natAbs_toIntW_le 32 b hb
      have hlt2 : ((toIntW 32 a).tmod (toIntW 32 b)).natAbs < 2 ^ (32 - 1) := by
        omega
      have := (int_bounds_of_natAbs_le _ _ (le_of_lt hlt2)).2
      rcases eq_or_lt_of_le this with he | he
      · exfalso
        have : ((toIntW 32 a).tmod (toIntW 32 b)).natAbs = 2 ^ (32 - 1) := by
          rw [he]; simp
        omega
      · exact he

/-- Reading back the quotient pattern gives the truncated quotient,
except in the single wrapping case `__divsi3(MIN, -1)`. -/
theorem toIntW_divsi3 (a b : Nat) (ha : a < 2 ^ 32) (hb : b < 2 ^ 32)
    (hex : ¬(a = 2 ^ 31 ∧ b = 2 ^ 32 - 1)) :
    toIntW 32 (__divsi3 a b) = (toIntW 32 a).tdiv (toIntW 32 b) := by
  have hnab : ((toIntW 32 a).tdiv (toIntW 32 b)).natAbs
      = (toIntW 32 a).natAbs / (toIntW 32 b).natAbs := Int.natAbs_tdiv _ _
  have hale := natAbs_toIntW_le 32 a ha
  have hqle : ((toIntW 32 a).tdiv (toIntW 32 b)).natAbs ≤ 2 ^ (32 - 1) := by
    rw [hnab]
    exact le_trans (Nat.div_le_self _ _) hale
  rw [divsi3_eq a b ha hb]
  apply toIntW_ofIntW 32 (by omega)
  · exact (int_bounds_of_natAbs_le _ _ hqle).1
  · rcases eq_or_lt_of_le (int_bounds_of_natAbs_le _ _ hqle).2 with he | he
    · exfalso
      -- the quotient can only reach +2^31 at MIN / -1, which is excluded
      have hQpos : (0 : Int) < (toIntW 32 a).tdiv (toIntW 32 b) := by
        rw [he]; exact_mod_cast Nat.pos_pow_of_pos (32 - 1) (by omega)
      have habs : ((toIntW 32 a).tdiv (toIntW 32 b)).natAbs = 2 ^ (32 - 1) := by
        rw [he]; simp
      have hdiv : (toIntW 32 a).natAbs / (toIntW 32 b).natAbs = 2 ^ (32 - 1) := by
        rw [← hnab, habs]
      have hd1 : (toIntW 32 b).natAbs = 1 ∧ (toIntW 32 a).natAbs = 2 ^ (32 - 1) := by
        rcases Nat.lt_or_ge (toIntW 32 b).natAbs 2 with hd | hd
        · have hd0 : (toIntW 32 b).natAbs = 0 ∨ (toIntW 32 b).natAbs = 1 := by omega
          rcases hd0 with hd0 | hd0
          · rw [hd0, Nat.div_zero] at hdiv
            exact absurd hdiv (by norm_num)
          · rw [hd0, Nat.div_one] at hdiv
            exact ⟨hd0, hdiv⟩
        · exfalso
          have : (toIntW 32 a).natAbs / (toIntW 32 b).natAbs
              ≤ (toIntW 32 a).natAbs / 2 :=
            Nat.div_le_div_left hd (by omega)
          have h30 : (toIntW 32 a).natAbs / 2 ≤ 2 ^ (32 - 1) / 2 :=
            Nat.div_le_div_right hale
          omega
      -- magnitudes force a = MIN and |b| = 1
      have haMIN : a = 2 ^ 31 := by
        by_cases hA : a < 2 ^ (32 - 1)
        · exfalso
          have := (toIntW_natAbs_lo 32 a hA).1
          omega
        · have := (toIntW_natAbs_hi 32 a ha hA).1
          omega
      have hbval : b = 1 ∨ b = 2 ^ 32 - 1 := by
        by_cases hB : b < 2 ^ (32 - 1)
        · left
          have := (toIntW_natAbs_lo 32 b hB).1
          omega
        · right
          have := (toIntW_natAbs_hi 32 b hb hB).1
          omega
      rcases hbval with hb1 | hbm1
      · -- b = +1 makes the quotient nonpositive, contradicting positivity
        have hianeg : toIntW 32 a ≤ 0 := by
          have h5 := (toIntW_natAbs_hi 32 a ha (by rw [haMIN]; norm_num)).2
          rw [h5]
          have : (0 : Int) ≤ (((2 ^ 32 - a : Nat) : Nat) : Int) := Int.ofNat_nonneg _
          omega
        have hibpos : 0 ≤ toIntW 32 b := by
          rw [hb1, toIntW_nonneg_eq 32 1 (by norm_num)]
          norm_num
        have : (toIntW 32 a).tdiv (toIntW 32 b) ≤ 0 := by
          have h6 : (0 : Int) ≤ (-(toIntW 32 a)).tdiv (toIntW 32 b) :=
            Int.tdiv_nonneg (by omega) hibpos
          rw [Int.neg_tdiv] at h6
          omega
        omega
      · exact hex ⟨haMIN, hbm1⟩
    · exact he

theorem negW_lt (w x : Nat) : negW w x < 2 ^ w :=
  Nat.mod_lt _ (Nat.pos_pow_of_pos w (by omega))

theorem negW_cast_modEq (w x : Nat) (hx : x ≤ 2 ^ w) :
    ((negW w x : Nat) : Int) ≡ -((x : Nat) : Int) [ZMOD (2 : Int) ^ w] := by
  rw [negW]
  push_cast [Nat.cast_sub hx]
  have h1 : ((2 : Int) ^ w - x) % (2 : Int) ^ w
      = (-(x : Int) + 1 * (2 : Int) ^ w) % (2 : Int) ^ w := by ring_nf
  rw [h1, Int.add_mul_emod_self]
  exact Int.emod_emod_of_dvd _ dvd_rfl

/-- `w`-bit negation of a pattern reads back as integer negation, except at
the most negative value. -/
theorem toIntW_negW (w x : Nat) (hw : 0 < w) (hx : x < 2 ^ w)
    (hmin : x ≠ 2 ^ (w - 1)) :
    toIntW w (negW w x) = -(toIntW w x) := by
  have hsplit : ((2 ^ w : Nat) : Int) = 2 * ((2 ^ (w - 1) : Nat) : Int) := by
    exact_mod_cast two_pow_split w hw
  have hMcast : ((2 : Int) ^ w) = ((2 ^ w : Nat) : Int) := by push_cast; ring
  have hb1 := toIntW_bounds w (negW w x) (negW_lt w x)
  have hb2 := toIntW_bounds w x hx
  have hne : toIntW w x ≠ -(((2 ^ (w - 1) : Nat) : Int)) := by
    intro hc
    apply hmin
    by_cases h : x < 2 ^ (w - 1)
    · rw [toIntW_nonneg_eq w x h] at hc
      have := Int.ofNat_nonneg x
      have hHpos : (0 : Int) < ((2 ^ (w - 1) : Nat) : Int) := by
        exact_mod_cast Nat.pos_pow_of_pos (w - 1) (by omega)
      omega
    · rw [toIntW_neg_eq w x h] at hc
      have : (x : Int) = ((2 ^ w : Nat) : Int) - ((2 ^ (w - 1) : Nat) : Int) := by
        omega
      have hxe : (x : Int) = ((2 ^ (w - 1) : Nat) : Int) := by omega
      exact_mod_cast hxe
  apply intEq_of_modEq_small ((2 ^ (w - 1) : Nat) : Int) _ _
    (by exact_mod_cast Nat.pos_pow_of_pos (w - 1) (by omega))
    hb1.1 hb1.2 (by omega) (by omega)
  rw [← hsplit, ← hMcast]
  calc toIntW w (negW w x)
      ≡ ((negW w x : Nat) : Int) [ZMOD (2 : Int) ^ w] := toIntW_modEq w (negW w x)
    _ ≡ -((x : Nat) : Int) [ZMOD (2 : Int) ^ w] := negW_cast_modEq w x (le_of_lt hx)
    _ ≡ -(toIntW w x) [ZMOD (2 : Int) ^ w] := (Int.ModEq.neg (toIntW_modEq w x)).symm

/-- Pattern negation commutes with encoding: `negW (ofIntW i) = ofIntW (-i)`. -/
theorem negW_ofIntW (w : Nat) (i : Int) : negW w (ofIntW w i) = ofIntW w (-i) := by
  apply patternsEq w _ _ (negW_lt w _) (ofIntW_lt w _)
  calc ((negW w (ofIntW w i) : Nat) : Int)
      ≡ -((ofIntW w i : Nat) : Int) [ZMOD (2 : Int) ^ w] :=
        negW_cast_modEq w _ (le_of_lt (ofIntW_lt w i))
    _ ≡ -i [ZMOD (2 : Int) ^ w] := Int.ModEq.neg (ofIntW_modEq w i)
    _ ≡ ((ofIntW w (-i) : Nat) : Int) [ZMOD (2 : Int) ^ w] := (ofIntW_modEq w (-i)).symm

theorem natAbs_toIntW_lt (w x : Nat) (hx : x < 2 ^ w) (hne : x ≠ 2 ^ (w - 1)) :
    (toIntW w x).natAbs < 2 ^ (w - 1) := by
  rcases eq_or_lt_of_le (natAbs_toIntW_le w x hx) with he | he
  · exfalso
    apply hne
    by_cases h : x < 2 ^ (w - 1)
    · have := (toIntW_natAbs_lo w x h).1; omega
    · have hw : 0 < w := by
        rcases Nat.eq_zero_or_pos w with h0 | h0
        · exfalso; apply h; subst h0; simpa using hx
        · exact h0
      have hsplit := two_pow_split w hw
      have := (toIntW_natAbs_hi w x hx h).1
      omega
  · exact he

/-- Sign of the truncated quotient: negative exactly when the operands
have opposite signs and the divisor's magnitude does not exceed the
dividend's. -/
theorem tdiv_neg_iff (x y : Int) (hy : y ≠ 0) :
    x.tdiv y < 0 ↔ (Xor' (x < 0) (y < 0) ∧ y.natAbs ≤ x.natAbs) := by
  have hdpos : 0 < y.natAbs := Int.natAbs_pos.mpr hy
  rcases lt_trichotomy x 0 with hx | hx | hx
  · rcases lt_trichotomy y 0 with hyy | hyy | hyy
    · -- both negative: the quotient is nonnegative
      have h1 : (0 : Int) ≤ (-x).tdiv (-y) :=
        Int.tdiv_nonneg (by omega) (by omega)
      rw [Int.neg_tdiv_neg] at h1
      simp only [Xor']
      constructor
      · intro h; omega
      · rintro ⟨(⟨h2, h3⟩ | ⟨h2, h3⟩), h4⟩ <;> omega
    · exact absurd hyy hy
    · -- negative over positive
      have h1 : x.tdiv y = -((-x).tdiv y) := by rw [Int.neg_tdiv]; ring
      have h2 : (0 : Int) ≤ (-x).tdiv y := Int.tdiv_nonneg (by omega) (by omega)
      have h3 : ((-x).tdiv y).natAbs = x.natAbs / y.natAbs := by
        rw [Int.natAbs_tdiv, Int.natAbs_neg]; rfl
      have h4 : (-x).tdiv y = ((x.natAbs / y.natAbs : Nat) : Int) := by
        rw [← h3]; exact (Int.natAbs_of_nonneg h2).symm
      rw [h1, h4]
      have h5 : (0 : Int) < ((x.natAbs / y.natAbs : Nat) : Int)
          ↔ 0 < x.natAbs / y.natAbs := by exact_mod_cast Iff.rfl
      have h6 := Nat.div_pos_iff (a := x.natAbs) (Nat.pos_iff_ne_zero.mp hdpos)
      simp only [Xor']
      constructor
      · intro h
        have : 0 < x.natAbs / y.natAbs := by omega
        exact ⟨Or.inl ⟨hx, by omega⟩, h6.mp this⟩
      · rintro ⟨_, h7⟩
        have : 0 < x.natAbs / y.natAbs := h6.mpr h7
        omega
  · -- zero dividend: quotient zero, and the magnitude condition fails
    subst hx
    rw [Int.zero_tdiv]
    simp only [Xor', Int.natAbs_zero]
    constructor
    · intro h; omega
    · rintro ⟨_, h4⟩; omega
  · rcases lt_trichotomy y 0 with hyy | hyy | hyy
    · -- positive over negative
      have h1 : x.tdiv y = -(x.tdiv (-y)) := by
        have h0 := Int.tdiv_neg x (-y)
        rw [neg_neg] at h0
        exact h0
      have h2 : (0 : Int) ≤ x.tdiv (-y) := Int.tdiv_nonneg (by omega) (by omega)
      have h3 : (x.tdiv (-y)).natAbs = x.natAbs / y.natAbs := by
        rw [Int.natAbs_tdiv, Int.natAbs_neg]; rfl
      have h4 : x.tdiv (-y) = ((x.natAbs / y.natAbs : Nat) : Int) := by
        rw [← h3]; exact (Int.natAbs_of_nonneg h2).symm
      rw [h1, h4]
      have h6 := Nat.div_pos_iff (a := x.natAbs) (Nat.pos_iff_ne_zero.mp hdpos)
      simp only [Xor']
      constructor
      · intro h
        have : 0 < x.natAbs / y.natAbs := by omega
        exact ⟨Or.inr ⟨hyy, by omega⟩, h6.mp this⟩
      · rintro ⟨_, h7⟩
        have : 0 < x.natAbs / y.natAbs := h6.mpr h7
        omega
    · exact absurd hyy hy
    · -- both positive
      have h1 : (0 : Int) ≤ x.tdiv y := Int.tdiv_nonneg (by omega) (by omega)
      simp only [Xor']
      constructor
      · intro h; omega
      · rintro ⟨(⟨h2, h3⟩ | ⟨h2, h3⟩), h4⟩ <;> omega

end DivisionLemmas

section ClaimTheorems

/-- C1: for every 32-bit signed `a` and `b` with `b` nonzero, and with the
leaf primitive `__udivsi3` returning the truncated unsigned quotient,
`__divsi3(a, b)` is the 32-bit pattern of the truncating
(round-toward-zero) signed quotient of `a` by `b`, all arithmetic taken
modulo `2 ^ 32`; in particular `__divsi3(MIN, -1)` wraps to `MIN` (pattern
`2 ^ 31`) rather than trapping. -/
theorem C1_divsi3_truncating_quotient (a b : Nat) (ha : a < 2 ^ 32)
    (hb : b < 2 ^ 32) (hbne : toIntW 32 b ≠ 0) :
    __divsi3 a b = ofIntW 32 ((toIntW 32 a).tdiv (toIntW 32 b))
      ∧ __divsi3 (2 ^ 31) (2 ^ 32 - 1) = 2 ^ 31 :=
  ⟨divsi3_eq a b ha hb, by decide⟩

/-- Witness for C1 at `a = -7`, `b = 3` (quotient `-2`). -/
theorem C1_witness :
    __divsi3 (2 ^ 32 - 7) 3 = ofIntW 32 ((toIntW 32 (2 ^ 32 - 7)).tdiv (toIntW 32 3))
      ∧ __divsi3 (2 ^ 31) (2 ^ 32 - 1) = 2 ^ 31 :=
  C1_divsi3_truncating_quotient (2 ^ 32 - 7) 3 (by norm_num) (by norm_num) (by decide)

/-- C6: the branch-free idiom `(x ^ s) - s` with `s = x >> 31`, in 32-bit
arithmetic, yields the absolute value of `x` whenever `x` is not the most
negative value, and wraps `MIN` back to `MIN` itself without a trap. -/
theorem C6_negation_idiom (x : Nat) (hx : x < 2 ^ 32) :
    (x ≠ 2 ^ 31 → toIntW 32 (condNeg 32 x (sMask 32 x)) = |toIntW 32 x|)
      ∧ (x = 2 ^ 31 → condNeg 32 x (sMask 32 x) = 2 ^ 31) := by
  constructor
  · intro hne
    rw [condNeg_sMask 32 x hx]
    have hlt : (toIntW 32 x).natAbs < 2 ^ (32 - 1) := natAbs_toIntW_lt 32 x hx hne
    rw [toIntW_nonneg_eq 32 _ hlt, Int.abs_eq_natAbs]
  · intro he
    subst he
    rw [condNeg_sMask 32 _ hx]
    have h1 := (toIntW_natAbs_hi 32 (2 ^ 31) hx (by norm_num)).1
    rw [h1]
    norm_num

/-- Witness for C6 at `x = -5` (pattern `2 ^ 32 - 5`). -/
theorem C6_witness :
    toIntW 32 (condNeg 32 (2 ^ 32 - 5) (sMask 32 (2 ^ 32 - 5)))
      = |toIntW 32 (2 ^ 32 - 5)| :=
  (C6_negation_idiom (2 ^ 32 - 5) (by norm_num)).1 (by norm_num)

/-- C10: for nonnegative `a` and positive `b` the signed wrapper is the
identity around the unsigned divider: both sign masks are zero and every
XOR-subtract step is trivial, so `__divsi3(a, b) = __udivsi3(a, b)`. -/
theorem C10_divsi3_identity_on_nonneg (a b : Nat) (ha : a < 2 ^ 31)
    (hbpos : 0 < b) (hb : b < 2 ^ 31) :
    __divsi3 a b = __udivsi3 a b := by
  have hpow : (2 : Nat) ^ 31 < 2 ^ 32 := by norm_num
  have ha32 : a < 2 ^ 32 := by omega
  have hb32 : b < 2 ^ 32 := by omega
  have hsa : sMask 32 a = 0 := by rw [sMask, if_pos]; exact ha
  have hsb : sMask 32 b = 0 := by rw [sMask, if_pos]; exact hb
  simp only [__divsi3, __udivsi3]
  rw [hsa, hsb, Nat.xor_self, condNeg_zero 32 a ha32, condNeg_zero 32 b hb32,
    condNeg_zero 32 _ (lt_of_le_of_lt (Nat.div_le_self a b) ha32)]

/-- Witness for C10 at `a = 10`, `b = 3`. -/
theorem C10_witness : __divsi3 10 3 = __udivsi3 10 3 :=
  C10_divsi3_identity_on_nonneg 10 3 (by norm_num) (by norm_num) (by norm_num)

/-- C4 counterexample: at `a = 1`, `b = -2` exactly one operand is
negative, yet the quotient `__divsi3(1, -2) = 0` is not negative, so
"the quotient is negative iff exactly one of `a` and `b` is negative"
fails as stated. -/
theorem C4_counterexample :
    Xor' (toIntW 32 1 < 0) (toIntW 32 (2 ^ 32 - 2) < 0)
      ∧ ¬ toIntW 32 (__divsi3 1 (2 ^ 32 - 2)) < 0 := by decide

/-- C4 amended: the quotient is negative iff exactly one operand is
negative and the divisor's magnitude does not exceed the dividend's
(otherwise the quotient is zero), or `a = MIN` and `b = -1` (where the
quotient wraps to `MIN`, which is negative although both operands are
negative); the remainder is zero or has the sign of the dividend. -/
theorem C4_sign_rules (a b : Nat) (ha : a < 2 ^ 32) (hb : b < 2 ^ 32)
    (hbne : toIntW 32 b ≠ 0) :
    (toIntW 32 (__divsi3 a b) < 0
        ↔ (Xor' (toIntW 32 a < 0) (toIntW 32 b < 0)
              ∧ (toIntW 32 b).natAbs ≤ (toIntW 32 a).natAbs)
            ∨ (a = 2 ^ 31 ∧ b = 2 ^ 32 - 1))
      ∧ (toIntW 32 (modulo_native a b) = 0
          ∨ (toIntW 32 (modulo_native a b)).sign = (toIntW 32 a).sign) := by
  constructor
  · by_cases hex : a = 2 ^ 31 ∧ b = 2 ^ 32 - 1
    · obtain ⟨ha1, hb1⟩ := hex
      subst ha1; subst hb1
      decide
    · rw [toIntW_divsi3 a b ha hb hex, tdiv_neg_iff _ _ hbne]
      constructor
      · exact Or.inl
      · rintro (hl | hr)
        · exact hl
        · exact absurd hr hex
  · rw [toIntW_modulo_native a b ha hb]
    exact tmod_sign _ _

/-- Witness for C4 (amended) at `a = -7`, `b = 2`. -/
theorem C4_witness :
    (toIntW 32 (__divsi3 (2 ^ 32 - 7) 2) < 0
        ↔ (Xor' (toIntW 32 (2 ^ 32 - 7) < 0) (toIntW 32 2 < 0)
              ∧ (toIntW 32 2).natAbs ≤ (toIntW 32 (2 ^ 32 - 7)).natAbs)
            ∨ ((2 ^ 32 - 7 : Nat) = 2 ^ 31 ∧ (2 : Nat) = 2 ^ 32 - 1))
      ∧ (toIntW 32 (modulo_native (2 ^ 32 - 7) 2) = 0
          ∨ (toIntW 32 (modulo_native (2 ^ 32 - 7) 2)).sign
              = (toIntW 32 (2 ^ 32 - 7)).sign) :=
  C4_sign_rules (2 ^ 32 - 7) 2 (by norm_num) (by norm_num) (by decide)

/-- C5: for every 32-bit signed `a` and nonzero `b`, with
`modulo_native(a, b) = a - __divsi3(a, b) * b` in 32-bit arithmetic, the
division identity `__divsi3(a, b) * b + modulo_native(a, b) == a` holds
modulo `2 ^ 32`, the remainder is zero or has the sign of `a`, and its
magnitude is strictly below the divisor's. -/
theorem C5_division_identity (a b : Nat) (ha : a < 2 ^ 32) (hb : b < 2 ^ 32)
    (hbne : toIntW 32 b ≠ 0) :
    (__divsi3 a b * b + modulo_native a b) % 2 ^ 32 = a
      ∧ (toIntW 32 (modulo_native a b) = 0
          ∨ (toIntW 32 (modulo_native a b)).sign = (toIntW 32 a).sign)
      ∧ (toIntW 32 (modulo_native a b)).natAbs < (toIntW 32 b).natAbs := by
  refine ⟨?_, ?_, ?_⟩
  · rw [modulo_native, subW]
    have hp : (0 : Nat) < 2 ^ 32 := by norm_num
    have hm : __divsi3 a b * b % 2 ^ 32 ≤ __divsi3 a b * b := Nat.mod_le _ _
    have hmlt : __divsi3 a b * b % 2 ^ 32 < 2 ^ 32 := Nat.mod_lt _ hp
    have key : (__divsi3 a b * b
          + (a + 2 ^ 32 - __divsi3 a b * b % 2 ^ 32) % 2 ^ 32) % 2 ^ 32
        = (__divsi3 a b * b + (a + 2 ^ 32 - __divsi3 a b * b % 2 ^ 32)) % 2 ^ 32 := by
      conv_lhs => rw [Nat.add_mod]
      conv_rhs => rw [Nat.add_mod]
      rw [Nat.mod_mod_of_dvd _ dvd_rfl]
    rw [key]
    have hdm := Nat.div_add_mod (__divsi3 a b * b) (2 ^ 32)
    have hXY : __divsi3 a b * b + (a + 2 ^ 32 - __divsi3 a b * b % 2 ^ 32)
        = a + 2 ^ 32 * (__divsi3 a b * b / 2 ^ 32 + 1) := by omega
    rw [hXY, Nat.add_mul_mod_self_left]
    exact Nat.mod_eq_of_lt ha
  · rw [toIntW_modulo_native a b ha hb]
    exact tmod_sign _ _
  · rw [toIntW_modulo_native a b ha hb]
    exact natAbs_tmod_lt _ _ hbne

/-- Witness for C5 at `a = -5`, `b = 3`. -/
theorem C5_witness :
    (__divsi3 (2 ^ 32 - 5) 3 * 3 + modulo_native (2 ^ 32 - 5) 3) % 2 ^ 32
        = 2 ^ 32 - 5
      ∧ (toIntW 32 (modulo_native (2 ^ 32 - 5) 3) = 0
          ∨ (toIntW 32 (modulo_native (2 ^ 32 - 5) 3)).sign
              = (toIntW 32 (2 ^ 32 - 5)).sign)
      ∧ (toIntW 32 (modulo_native (2 ^ 32 - 5) 3)).natAbs
          < (toIntW 32 3).natAbs :=
  C5_division_identity (2 ^ 32 - 5) 3 (by norm_num) (by norm_num) (by decide)

/-- C7: for `b` nonzero and `a` not the most negative value, negating
either operand (in wrapping 32-bit arithmetic) negates the quotient, and
negating both leaves it unchanged. -/
theorem C7_negation_relations (a b : Nat) (ha : a < 2 ^ 32) (hb : b < 2 ^ 32)
    (hbne : toIntW 32 b ≠ 0) (hamin : a ≠ 2 ^ 31) :
    __divsi3 a b = negW 32 (__divsi3 (negW 32 a) b)
      ∧ __divsi3 a b = negW 32 (__divsi3 a (negW 32 b))
      ∧ __divsi3 a b = __divsi3 (negW 32 a) (negW 32 b) := by
  have hna : negW 32 a < 2 ^ 32 := negW_lt 32 a
  have hnb : negW 32 b < 2 ^ 32 := negW_lt 32 b
  have hta : toIntW 32 (negW 32 a) = -(toIntW 32 a) :=
    toIntW_negW 32 a (by omega) ha hamin
  have habs : (toIntW 32 a).natAbs < 2 ^ (32 - 1) := natAbs_toIntW_lt 32 a ha hamin
  have hzero_of_min : ∀ i : Int, i.natAbs < 2 ^ (32 - 1)
      → i.tdiv (toIntW 32 (2 ^ 31)) = 0 := by
    intro i hi
    have hd : (toIntW 32 (2 ^ 31)).natAbs = 2 ^ (32 - 1) := by
      have := (toIntW_natAbs_hi 32 (2 ^ 31) (by norm_num) (by norm_num)).1
      rw [this]; norm_num
    apply Int.natAbs_eq_zero.mp
    rw [Int.natAbs_tdiv, hd]
    exact Nat.div_eq_of_lt hi
  refine ⟨?_, ?_, ?_⟩
  · rw [divsi3_eq a b ha hb, divsi3_eq (negW 32 a) b hna hb, hta, Int.neg_tdiv,
      negW_ofIntW, neg_neg]
  · by_cases hbmin : b = 2 ^ 31
    · subst hbmin
      have hnegb : negW 32 (2 ^ 31) = 2 ^ 31 := by decide
      rw [hnegb]
      have hz : __divsi3 a (2 ^ 31) = 0 := by
        rw [divsi3_eq a (2 ^ 31) ha (by norm_num), hzero_of_min _ habs]
        decide
      rw [hz]
      decide
    · have htb : toIntW 32 (negW 32 b) = -(toIntW 32 b) :=
        toIntW_negW 32 b (by omega) hb hbmin
      rw [divsi3_eq a b ha hb, divsi3_eq a (negW 32 b) ha hnb, htb, Int.tdiv_neg,
        negW_ofIntW, neg_neg]
  · by_cases hbmin : b = 2 ^ 31
    · subst hbmin
      have hnegb : negW 32 (2 ^ 31) = 2 ^ 31 := by decide
      rw [hnegb]
      have hz : __divsi3 a (2 ^ 31) = 0 := by
        rw [divsi3_eq a (2 ^ 31) ha (by norm_num), hzero_of_min _ habs]
        decide
      have hz2 : __divsi3 (negW 32 a) (2 ^ 31) = 0 := by
        rw [divsi3_eq (negW 32 a) (2 ^ 31) hna (by norm_num)]
        rw [hzero_of_min _ (by rw [hta, Int.natAbs_neg]; exact habs)]
        decide
      rw [hz, hz2]
    · have htb : toIntW 32 (negW 32 b) = -(toIntW 32 b) :=
        toIntW_negW 32 b (by omega) hb hbmin
      rw [divsi3_eq a b ha hb, divsi3_eq (negW 32 a) (negW 32 b) hna hnb, hta, htb,
        Int.neg_tdiv_neg]

/-- Witness for C7 at `a = 7`, `b = -2`. -/
theorem C7_witness :
    __divsi3 7 (2 ^ 32 - 2) = negW 32 (__divsi3 (negW 32 7) (2 ^ 32 - 2))
      ∧ __divsi3 7 (2 ^ 32 - 2) = negW 32 (__divsi3 7 (negW 32 (2 ^ 32 - 2)))
      ∧ __divsi3 7 (2 ^ 32 - 2) = __divsi3 (negW 32 7) (negW 32 (2 ^ 32 - 2)) :=
  C7_negation_relations 7 (2 ^ 32 - 2) (by norm_num) (by norm_num) (by decide)
    (by norm_num)

/-- C2 counterexample: the 128-bit value with high word
`0x8000000000000000` and low word `0` is the pattern `2 ^ 127`, i.e. the
most negative `ti_int` `-2 ^ 127`; `__modti3` of it by `3` yields `-2`,
not `2` as claimed. -/
theorem C2_counterexample : toIntW 128 (__modti3 (2 ^ 127) 3) ≠ 2 := by decide

/-- C2 amended: that dividend, taken modulo `3` and modulo `-3` via
`__modti3`, yields remainder `-2` in both cases (matching the test
table's expected values; the spec's claimed remainder `2` belongs to the
dividend `2 ^ 63`, whose pattern has high word `0` and low word
`0x8000000000000000`). -/
theorem C2_min128_remainders :
    toIntW 128 (__modti3 (2 ^ 127) 3) = -2
      ∧ toIntW 128 (__modti3 (2 ^ 127) (ofIntW 128 (-3))) = -2 := by decide

/-- C3 counterexample: for `MIN = -2 ^ 127` (pattern `2 ^ 127`) the
modulo primitive gives `MIN mod -3 = -2`, not `2` as claimed. -/
theorem C3_counterexample :
    toIntW 128 (__modti3 (2 ^ 127) (ofIntW 128 (-3))) ≠ 2 := by decide

/-- C3 amended: for `MIN` the most negative 128-bit value,
`modulo(MIN, 1) = 0`, `modulo(MIN, 2) = 0`, `modulo(MIN, 3) = -2` and
`modulo(MIN, -3) = -2`, the two's-complement negation wrapping without a
trap (the model is a total function evaluated below). -/
theorem C3_min_modulo_cases :
    toIntW 128 (__modti3 (2 ^ 127) 1) = 0
      ∧ toIntW 128 (__modti3 (2 ^ 127) 2) = 0
      ∧ toIntW 128 (__modti3 (2 ^ 127) 3) = -2
      ∧ toIntW 128 (__modti3 (2 ^ 127) (ofIntW 128 (-3))) = -2 := by decide

theorem run_main_eq_zero_iff (tbl : List (Nat × Nat × Nat)) :
    run_main tbl = 0 ↔ ∀ t ∈ tbl, __modti3 t.1 t.2.1 = t.2.2 := by
  induction tbl with
  | nil => simp [run_main]
  | cons hd t ih =>
    obtain ⟨a, b, e⟩ := hd
    by_cases hc : __modti3 a b = e
    · simp [run_main, test__modti3, hc, ih]
    · simp [run_main, test__modti3, hc]

theorem run_main_zero_or_one (tbl : List (Nat × Nat × Nat)) :
    run_main tbl = 0 ∨ run_main tbl = 1 := by
  induction tbl with
  | nil => exact Or.inl rfl
  | cons hd t ih =>
    obtain ⟨a, b, e⟩ := hd
    by_cases hc : test__modti3 a b e
    · right; simp [run_main, hc]
    · rcases ih with h | h
      · left; simp [run_main, hc, h]
      · right; simp [run_main, hc, h]

/-- C8: on any table, `main` returns 0 iff every entry's `__modti3` result
equals its expected value; its result is always 0 or 1; a failing entry at
the head makes it return 1 immediately, whatever follows; and
`test__modti3` prints exactly one diagnostic line on a mismatch and none
on a pass.  The actual eighteen-entry table passes, so the shipped
harness exits 0. -/
theorem C8_harness_behavior (tbl : List (Nat × Nat × Nat)) :
    (run_main tbl = 0 ↔ ∀ t ∈ tbl, __modti3 t.1 t.2.1 = t.2.2)
      ∧ (run_main tbl = 0 ∨ run_main tbl = 1)
      ∧ (∀ a b e rest, __modti3 a b ≠ e → run_main ((a, b, e) :: rest) = 1)
      ∧ (∀ a b e, test__modti3_lines a b e = if __modti3 a b = e then 0 else 1)
      ∧ run_main mainTable = 0 := by
  refine ⟨run_main_eq_zero_iff tbl, run_main_zero_or_one tbl, ?_, ?_, by decide⟩
  · intro a b e rest h
    simp [run_main, test__modti3, h]
  · intro a b e
    by_cases h : __modti3 a b = e <;> simp [test__modti3_lines, h]

/-- Witness for C8: a failing head entry (5 mod 3 is 2, not 1) makes the
harness return 1 and print one line. -/
theorem C8_witness :
    run_main ((5, 3, 1) :: []) = 1 ∧ test__modti3_lines 5 3 1 = 1 := by
  constructor
  · exact (C8_harness_behavior []).2.2.1 5 3 1 [] (by decide)
  · rw [(C8_harness_behavior []).2.2.2.1 5 3 1]
    decide

/-- C9: when the preprocessor condition `__x86_64` is not satisfied, every
test block of `main` is compiled away: it runs the empty table, checks
nothing, and unconditionally returns 0. -/
theorem C9_main_without_x86_64 :
    main_result false = run_main [] ∧ main_result false = 0 :=
  ⟨rfl, rfl⟩

end ClaimTheorems
